import Mathlib

set_option maxHeartbeats 1000000

/-!
Shallow embedding of the ITK `LabelMap` container
(`Modules/Filtering/LabelMap/include/itkLabelMap.hxx`).

The label type `LabelType` is an unsigned integral type; it is modelled as
`ℕ` together with an explicit maximum value `M` (the value of
`NumericTraits<LabelType>::max()`), with `NumericTraits::NonpositiveMin() = 0`
and wrap-around increment `(x + 1) % (M + 1)` where the C++ code performs
`LabelType` arithmetic.  Spatial positions (`IndexType`) are opaque
comparable values, modelled as `ℕ`.  The `std::map` label-object container
is modelled as an association list with strictly ascending keys.  The
`Modified()` change-notification hook is modelled as a counter.
Fallible operations return `Except (Err × LabelMap) LabelMap`, the carried
`LabelMap` being the state at the moment the exception is raised (C++
exceptions leave already-performed mutations in place).
-/

namespace ITKLabelMap

/-- Modelled from the spec: `LabelObject` (an external collaborator whose
implementation is not under `src/`) owns the set of spatial positions
belonging to one label.  Its capability set (spec §6) is: `hasIndex` is
membership in `region`, `addIndex` inserts, `addLine` inserts a contiguous
run, `removeIndex` removes and reports whether the position was present,
`isEmpty` tests `region = ∅`, and `getLabel`/`setLabel` access `label`. -/
structure LabelObject where
  label : ℕ
  region : Finset ℕ
deriving DecidableEq

/-- The `LabelMap` state: `m_BackgroundValue`, the `m_LabelObjectContainer`
(an association list with ascending keys, modelling `std::map<LabelType,
LabelObjectPointerType>`), and a counter of `Modified()` notifications. -/
structure LabelMap where
  bg : ℕ
  objects : List (ℕ × LabelObject)
  modCount : ℕ
deriving DecidableEq

/-- The error kinds surfaced by the container (spec §7). -/
inductive Err where
  | backgroundLabelAccess
  | labelNotFound
  | positionNotFound
  | containerFull
  | incompatibleSource
deriving DecidableEq

/-- Wrap-around successor of a `LabelType` value with maximum `M`:
`label + 1` computed in the unsigned machine type. -/
def wsucc (M x : ℕ) : ℕ := (x + 1) % (M + 1)

/-- Keys of the container in iteration (ascending) order. -/
def keysOf (l : List (ℕ × LabelObject)) : List ℕ := l.map Prod.fst

/-- `std::map::operator[] = v` / insert-or-assign, keeping keys ascending. -/
def mapInsert : List (ℕ × LabelObject) → ℕ → LabelObject → List (ℕ × LabelObject)
  | [], k, v => [(k, v)]
  | e :: t, k, v =>
    if k < e.1 then (k, v) :: e :: t
    else if k = e.1 then (k, v) :: t
    else e :: mapInsert t k v

/-- `std::map::erase(key)`. -/
def mapErase (l : List (ℕ × LabelObject)) (k : ℕ) : List (ℕ × LabelObject) :=
  l.filter (fun e => e.1 ≠ k)

/-- `std::map::find(key)`: the entry the returned iterator points at
(`none` models the `end()` iterator). -/
def mapFindEntry (l : List (ℕ × LabelObject)) (k : ℕ) : Option (ℕ × LabelObject) :=
  l.find? (fun e => e.1 = k)

/-- Take the state out of a possibly-failing mutator: on an exception the
container is left in the carried state. -/
def exceptState : Except (Err × LabelMap) LabelMap → LabelMap
  | .ok s => s
  | .error (_, s) => s

/-- A freshly constructed `LabelMap` (constructor sets
`m_BackgroundValue = 0` then `Initialize()`; `SetBackgroundValue` may then
set `b`).  `ClearLabels` on the empty container does not notify. -/
def fresh (b : ℕ) : LabelMap := ⟨b, [], 0⟩

/-- `ClearLabels()`: empties the container, notifying only when it was
non-empty. -/
def clearLabels (s : LabelMap) : LabelMap :=
  if s.objects.isEmpty then s
  else { s with objects := [], modCount := s.modCount + 1 }

/-- `AddLabelObject(labelObject)`: insert/overwrite under the object's own
label, then `Modified()`.  (The C++ null-argument check is not
representable: a Lean `LabelObject` is never null.) -/
def addLabelObject (s : LabelMap) (obj : LabelObject) : LabelMap :=
  { s with objects := mapInsert s.objects obj.label obj
         , modCount := s.modCount + 1 }

/-- Internal `AddPixel(it, idx, label)`: `it` is the iterator argument
(`some (key, object)` for a dereferenceable iterator, `none` for `end()`). -/
def addPixelIt (s : LabelMap) (it : Option (ℕ × LabelObject)) (idx lab : ℕ) :
    LabelMap :=
  if lab = s.bg then s
  else
    match it with
    | some e =>
      { s with objects := mapInsert s.objects e.1
                 { e.2 with region := insert idx e.2.region }
             , modCount := s.modCount + 1 }
    | none => addLabelObject s ⟨lab, {idx}⟩

/-- Public `AddPixel(idx, label)`. -/
def addPixel (s : LabelMap) (idx lab : ℕ) : LabelMap :=
  if lab = s.bg then s
  else addPixelIt s (mapFindEntry s.objects lab) idx lab

/-- `RemoveLabel(label)`: refuses the background label, otherwise erases the
key (present or not) and notifies unconditionally. -/
def removeLabel (s : LabelMap) (lab : ℕ) : Except (Err × LabelMap) LabelMap :=
  if s.bg = lab then .error (.backgroundLabelAccess, s)
  else .ok { s with objects := mapErase s.objects lab
                  , modCount := s.modCount + 1 }

/-- `RemoveLabelObject(labelObject)`: delegates to `RemoveLabel` on the
object's label. -/
def removeLabelObject (s : LabelMap) (obj : LabelObject) :
    Except (Err × LabelMap) LabelMap :=
  removeLabel s obj.label

/-- Internal `RemovePixel(it, idx, iEmitModifiedEvent)`: if the iterator is
dereferenceable and the position was present, remove it; a region that
becomes empty triggers `RemoveLabelObject` (which itself notifies via
`RemoveLabel`); finally notify iff requested. -/
def removePixelIt (s : LabelMap) (it : Option (ℕ × LabelObject))
    (idx : ℕ) (emit : Bool) : Except (Err × LabelMap) LabelMap :=
  match it with
  | none => .ok s
  | some e =>
    if idx ∈ e.2.region then
      let obj' : LabelObject := { e.2 with region := e.2.region.erase idx }
      let s1 : LabelMap :=
        { s with objects := mapInsert s.objects e.1 obj' }
      let r : Except (Err × LabelMap) LabelMap :=
        if obj'.region = ∅ then removeLabelObject s1 obj' else .ok s1
      r.map (fun t => if emit then { t with modCount := t.modCount + 1 } else t)
    else .ok s

/-- Public `RemovePixel(idx, label)`: no-op on the background label,
otherwise the internal overload with notification requested. -/
def removePixel (s : LabelMap) (idx lab : ℕ) : Except (Err × LabelMap) LabelMap :=
  if lab = s.bg then .ok s
  else removePixelIt s (mapFindEntry s.objects lab) idx true

/-- The loop of `SetPixel`: walk the original keys in ascending order; a key
different from the target loses the position (notification suppressed
unless the target is the background), the target key gains it; `newLabel`
records whether the target key was never met. -/
def setPixelGo (idx lab : ℕ) :
    List ℕ → LabelMap → Bool → Except (Err × LabelMap) LabelMap
  | [], s, newLabel =>
    .ok (if newLabel then addPixelIt s none idx lab else s)
  | k :: ks, s, newLabel =>
    if k ≠ lab then
      match removePixelIt s (mapFindEntry s.objects k) idx (lab == s.bg) with
      | .error e => .error e
      | .ok s' => setPixelGo idx lab ks s' newLabel
    else
      setPixelGo idx lab ks (addPixelIt s (mapFindEntry s.objects k) idx lab) false

/-- `SetPixel(idx, iLabel)`. -/
def setPixel (s : LabelMap) (idx lab : ℕ) : Except (Err × LabelMap) LabelMap :=
  setPixelGo idx lab (keysOf s.objects) s true

/-- Modelled from the spec: `LabelObject::AddLine(idx, length)` adds a
contiguous run of `length` positions starting at `idx` (spec §6 / §4.6;
contiguity along the advancing axis, with positions modelled as `ℕ`). -/
def lineRun (idx len : ℕ) : Finset ℕ := (Finset.range len).image (· + idx)

/-- `SetLine(idx, length, label)`: no-op on the background label; otherwise
add the run to the existing object, or create, label and register a new
one. -/
def setLine (s : LabelMap) (idx len lab : ℕ) : LabelMap :=
  if lab = s.bg then s
  else
    match mapFindEntry s.objects lab with
    | some e =>
      { s with objects := mapInsert s.objects e.1
                 { e.2 with region := e.2.region ∪ lineRun idx len }
             , modCount := s.modCount + 1 }
    | none => addLabelObject s ⟨lab, lineRun idx len⟩

/-- The linear scan of `PushLabelObject`'s last allocation branch: walk the
ascending keys with candidate `label`, skipping the background value; on
the first candidate differing from the key at hand, stop (`SetLabel` was
called: first component `some` candidate).  Both components report the
final value of the `label` loop variable. -/
def scanLoop (M bg : ℕ) : List ℕ → ℕ → Option ℕ × ℕ
  | [], label => (none, label)
  | k :: ks, label =>
    let l1 := if label = bg then wsucc M label else label
    if l1 ≠ k then (some l1, l1)
    else scanLoop M bg ks (wsucc M l1)

/-- `PushLabelObject(labelObject)`: compute an unused label in the source's
exact branch order, set it on the object, then `AddLabelObject`.  In the
scan branch the object's label is only set when the loop breaks, and the
`label == lastLabel` test decides the container-full exception. -/
def pushLabelObject (M : ℕ) (s : LabelMap) (obj : LabelObject) :
    Except (Err × LabelMap) LabelMap :=
  match s.objects with
  | [] =>
    .ok (addLabelObject s { obj with label := if s.bg = 0 then 1 else 0 })
  | e :: es =>
    let lastLabel := (es.getLastD e).1
    let firstLabel := e.1
    if lastLabel ≠ M ∧ wsucc M lastLabel ≠ s.bg then
      .ok (addLabelObject s { obj with label := wsucc M lastLabel })
    else if lastLabel ≠ M ∧ wsucc M lastLabel ≠ M ∧
        wsucc M (wsucc M lastLabel) ≠ s.bg then
      .ok (addLabelObject s { obj with label := wsucc M (wsucc M lastLabel) })
    else if firstLabel ≠ 0 ∧ firstLabel - 1 ≠ s.bg then
      .ok (addLabelObject s { obj with label := firstLabel - 1 })
    else
      let r := scanLoop M s.bg (keysOf (e :: es)) firstLabel
      let obj' := match r.1 with
                  | some l => { obj with label := l }
                  | none => obj
      if r.2 = lastLabel then .error (.containerFull, s)
      else .ok (addLabelObject s obj')

/-- The `Graft` source: either a compatible `LabelMap` (the
`dynamic_cast<const Self *>` succeeds) or an incompatible `DataObject`. -/
inductive GraftSource where
  | compatible (b : LabelMap)
  | incompatible
deriving DecidableEq

/-- `Graft(data)`: on a compatible source, copy the label-object container
and the background value (a shallow copy: the mapping is duplicated, the
objects are shared); on an incompatible source, raise. -/
def graft (s : LabelMap) (src : GraftSource) : Except (Err × LabelMap) LabelMap :=
  match src with
  | .compatible b => .ok { s with objects := b.objects, bg := b.bg }
  | .incompatible => .error (.incompatibleSource, s)

/-- `GetLabelObject(label)`: refuse the background label, fail on an absent
key, otherwise return the stored object. -/
def getLabelObject (s : LabelMap) (lab : ℕ) : Except Err LabelObject :=
  if s.bg = lab then .error .backgroundLabelAccess
  else
    match mapFindEntry s.objects lab with
    | none => .error .labelNotFound
    | some e => .ok e.2

/-- `GetLabelObject(idx)` (position overload): ascending scan for the first
object containing the position; fail if none. -/
def getLabelObjectByIndex (s : LabelMap) (idx : ℕ) : Except Err LabelObject :=
  match s.objects.find? (fun e => idx ∈ e.2.region) with
  | some e => .ok e.2
  | none => .error .positionNotFound

/-- `GetLabels()`: the ascending list of keys. -/
def getLabels (s : LabelMap) : List ℕ := keysOf s.objects

/-- `GetNumberOfLabelObjects()`. -/
def getNumberOfLabelObjects (s : LabelMap) : ℕ := s.objects.length

/-- One public mutating call (the operations quantified over by the
invariant claims). -/
inductive Op where
  | addLabelObject (obj : LabelObject)
  | pushLabelObject (obj : LabelObject)
  | addPixel (idx lab : ℕ)
  | setPixel (idx lab : ℕ)
  | setLine (idx len lab : ℕ)
  | removePixel (idx lab : ℕ)
  | removeLabel (lab : ℕ)
  | clearLabels
  | graft (src : GraftSource)
deriving DecidableEq

/-- Apply one mutating call; a raised exception leaves the container in the
state carried by the exception. -/
def step (M : ℕ) (s : LabelMap) : Op → LabelMap
  | .addLabelObject obj => addLabelObject s obj
  | .pushLabelObject obj => exceptState (pushLabelObject M s obj)
  | .addPixel idx lab => addPixel s idx lab
  | .setPixel idx lab => exceptState (setPixel s idx lab)
  | .setLine idx len lab => setLine s idx len lab
  | .removePixel idx lab => exceptState (removePixel s idx lab)
  | .removeLabel lab => exceptState (removeLabel s lab)
  | .clearLabels => clearLabels s
  | .graft src => exceptState (graft s src)

/-- Apply a sequence of mutating calls. -/
def run (M : ℕ) (s : LabelMap) : List Op → LabelMap
  | [] => s
  | op :: ops => run M (step M s op) ops

/-- The container's keys are strictly ascending (the `std::map` ordering). -/
def SortedKeys (l : List (ℕ × LabelObject)) : Prop :=
  l.Pairwise (fun a b => a.1 < b.1)

/-- Invariant I2: every stored object reports its own key as its label. -/
def LabelsMatch (l : List (ℕ × LabelObject)) : Prop :=
  ∀ e ∈ l, e.2.label = e.1

/-- Invariant I1: the background value is never a key. -/
def BgNotKey (s : LabelMap) : Prop :=
  ∀ e ∈ s.objects, e.1 ≠ s.bg

/-- Invariant I4: every stored object owns at least one position. -/
def AllNonEmpty (l : List (ℕ × LabelObject)) : Prop :=
  ∀ e ∈ l, e.2.region ≠ ∅

/-- Structural well-formedness of a `LabelMap` (sorted keys, I2, I1). -/
def WF (s : LabelMap) : Prop :=
  SortedKeys s.objects ∧ LabelsMatch s.objects ∧ BgNotKey s

/-- At most one stored object owns the position `q` (invariant I3 in
entry form: any two owning entries coincide on their key). -/
def AtMostOne (s : LabelMap) (q : ℕ) : Prop :=
  ∀ e1 ∈ s.objects, ∀ e2 ∈ s.objects,
    q ∈ e1.2.region → q ∈ e2.2.region → e1.1 = e2.1

/-- The side conditions under which a mutating call preserves the
structural invariants (see the amended invariant claims): direct
insertions must not carry the background label nor an empty region, the
pushed width must be non-degenerate, `SetLine` must add a non-trivial run
when it creates an object, and a graft source must itself be invariant. -/
def SafeOp (M : ℕ) (s : LabelMap) : Op → Prop
  | .addLabelObject obj => obj.label ≠ s.bg ∧ obj.region ≠ ∅
  | .pushLabelObject obj => 1 ≤ M ∧ obj.label ≠ s.bg ∧ obj.region ≠ ∅
  | .setLine _ len lab => lab = s.bg ∨ 0 < len
  | .graft src =>
    match src with
    | .compatible b => WF b ∧ AllNonEmpty b.objects
    | .incompatible => True
  | _ => True

/-- A trace of mutating calls each of which is safe in the state it is
applied to. -/
def SafeTrace (M : ℕ) (s : LabelMap) : List Op → Prop
  | [] => True
  | op :: ops => SafeOp M s op ∧ SafeTrace M (step M s op) ops

instance (l : List (ℕ × LabelObject)) : Decidable (SortedKeys l) :=
  inferInstanceAs (Decidable (l.Pairwise (fun a b : ℕ × LabelObject => a.1 < b.1)))

instance (l : List (ℕ × LabelObject)) : Decidable (LabelsMatch l) :=
  inferInstanceAs (Decidable (∀ e ∈ l, e.2.label = e.1))

instance (s : LabelMap) : Decidable (BgNotKey s) :=
  inferInstanceAs (Decidable (∀ e ∈ s.objects, e.1 ≠ s.bg))

instance (l : List (ℕ × LabelObject)) : Decidable (AllNonEmpty l) :=
  inferInstanceAs (Decidable (∀ e ∈ l, e.2.region ≠ ∅))

instance (s : LabelMap) : Decidable (WF s) :=
  inferInstanceAs (Decidable (_ ∧ _ ∧ _))

instance (s : LabelMap) (q : ℕ) : Decidable (AtMostOne s q) :=
  inferInstanceAs (Decidable (∀ e1 ∈ s.objects, ∀ e2 ∈ s.objects, _ → _ → _))

instance (M : ℕ) (s : LabelMap) : (op : Op) → Decidable (SafeOp M s op)
  | .addLabelObject _ => inferInstanceAs (Decidable (_ ∧ _))
  | .pushLabelObject _ => inferInstanceAs (Decidable (_ ∧ _ ∧ _))
  | .addPixel _ _ => isTrue trivial
  | .setPixel _ _ => isTrue trivial
  | .setLine _ _ _ => inferInstanceAs (Decidable (_ ∨ _))
  | .removePixel _ _ => isTrue trivial
  | .removeLabel _ => isTrue trivial
  | .clearLabels => isTrue trivial
  | .graft (.compatible _) => inferInstanceAs (Decidable (_ ∧ _))
  | .graft .incompatible => isTrue trivial

instance (M : ℕ) : (s : LabelMap) → (ops : List Op) → Decidable (SafeTrace M s ops)
  | _, [] => isTrue trivial
  | s, op :: ops =>
    have : Decidable (SafeTrace M (step M s op) ops) :=
      instDecidableSafeTrace M (step M s op) ops
    inferInstanceAs (Decidable (_ ∧ _))


theorem sortedKeys_nil : SortedKeys [] := List.Pairwise.nil

theorem sortedKeys_cons {e : ℕ × LabelObject} {t : List (ℕ × LabelObject)} :
    SortedKeys (e :: t) ↔ (∀ b ∈ t, e.1 < b.1) ∧ SortedKeys t := by
  simp [SortedKeys, List.pairwise_cons]

theorem sortedKeys_key_unique {l : List (ℕ × LabelObject)} (hs : SortedKeys l)
    {e1 e2 : ℕ × LabelObject} (h1 : e1 ∈ l) (h2 : e2 ∈ l) (hk : e1.1 = e2.1) :
    e1 = e2 := by
  induction l with
  | nil => cases h1
  | cons a t ih =>
    rcases sortedKeys_cons.mp hs with ⟨ha, ht⟩
    rcases List.mem_cons.mp h1 with rfl | h1'
    · rcases List.mem_cons.mp h2 with rfl | h2'
      · rfl
      · exact absurd hk (Nat.ne_of_lt (ha _ h2'))
    · rcases List.mem_cons.mp h2 with rfl | h2'
      · exact absurd hk.symm (Nat.ne_of_lt (ha _ h1'))
      · exact ih ht h1' h2'

theorem mem_mapInsert {l : List (ℕ × LabelObject)} (hs : SortedKeys l)
    (k : ℕ) (v : LabelObject) (e : ℕ × LabelObject) :
    e ∈ mapInsert l k v ↔ e = (k, v) ∨ (e ∈ l ∧ e.1 ≠ k) := by
  induction l with
  | nil => simp [mapInsert]
  | cons a t ih =>
    rcases sortedKeys_cons.mp hs with ⟨ha, ht⟩
    simp only [mapInsert]
    split
    · rename_i hlt
      constructor
      · intro h
        rcases List.mem_cons.mp h with rfl | h
        · exact Or.inl rfl
        · refine Or.inr ⟨h, ?_⟩
          rcases List.mem_cons.mp h with rfl | h'
          · omega
          · have := ha _ h'; omega
      · rintro (rfl | ⟨h, _⟩)
        · exact List.mem_cons_self _ _
        · exact List.mem_cons_of_mem _ h
    · split
      · rename_i hne heq
        subst heq
        constructor
        · intro h
          rcases List.mem_cons.mp h with rfl | h
          · exact Or.inl rfl
          · refine Or.inr ⟨List.mem_cons_of_mem _ h, ?_⟩
            have := ha _ h; omega
        · rintro (rfl | ⟨h, hk⟩)
          · exact List.mem_cons_self _ _
          · rcases List.mem_cons.mp h with rfl | h
            · omega
            · exact List.mem_cons_of_mem _ h
      · rename_i h1 h2
        constructor
        · intro h
          rcases List.mem_cons.mp h with rfl | h
          · exact Or.inr ⟨List.mem_cons_self _ _, by omega⟩
          · rcases (ih ht).mp h with rfl | ⟨h, hk⟩
            · exact Or.inl rfl
            · exact Or.inr ⟨List.mem_cons_of_mem _ h, hk⟩
        · rintro (rfl | ⟨h, hk⟩)
          · exact List.mem_cons_of_mem _ ((ih ht).mpr (Or.inl rfl))
          · rcases List.mem_cons.mp h with rfl | h
            · exact List.mem_cons_self _ _
            · exact List.mem_cons_of_mem _ ((ih ht).mpr (Or.inr ⟨h, hk⟩))

theorem sortedKeys_mapInsert {l : List (ℕ × LabelObject)} (hs : SortedKeys l)
    (k : ℕ) (v : LabelObject) : SortedKeys (mapInsert l k v) := by
  induction l with
  | nil => simp [mapInsert, SortedKeys]
  | cons a t ih =>
    rcases sortedKeys_cons.mp hs with ⟨ha, ht⟩
    simp only [mapInsert]
    split
    · rename_i hlt
      refine sortedKeys_cons.mpr ⟨?_, hs⟩
      intro b hb
      rcases List.mem_cons.mp hb with rfl | hb
      · exact hlt
      · have := ha _ hb; omega
    · split
      · rename_i hne heq
        subst heq
        exact sortedKeys_cons.mpr ⟨ha, ht⟩
      · rename_i h1 h2
        refine sortedKeys_cons.mpr ⟨?_, ih ht⟩
        intro b hb
        rcases (mem_mapInsert ht k v b).mp hb with rfl | ⟨hb, _⟩
        · omega
        · exact ha _ hb

theorem mem_mapErase {l : List (ℕ × LabelObject)} {k : ℕ} {e : ℕ × LabelObject} :
    e ∈ mapErase l k ↔ e ∈ l ∧ e.1 ≠ k := by
  simp [mapErase, List.mem_filter]

theorem sortedKeys_mapErase {l : List (ℕ × LabelObject)} (hs : SortedKeys l)
    (k : ℕ) : SortedKeys (mapErase l k) :=
  List.Pairwise.filter _ hs

theorem mapFindEntry_eq_some {l : List (ℕ × LabelObject)} {k : ℕ}
    {e : ℕ × LabelObject} (h : mapFindEntry l k = some e) : e ∈ l ∧ e.1 = k := by
  refine ⟨List.mem_of_find?_eq_some h, ?_⟩
  have := List.find?_some h
  simpa using this

theorem mapFindEntry_eq_none {l : List (ℕ × LabelObject)} {k : ℕ} :
    mapFindEntry l k = none ↔ ∀ e ∈ l, e.1 ≠ k := by
  simp [mapFindEntry, List.find?_eq_none]

theorem mapFindEntry_of_mem {l : List (ℕ × LabelObject)} (hs : SortedKeys l)
    {k : ℕ} {v : LabelObject} (h : (k, v) ∈ l) : mapFindEntry l k = some (k, v) := by
  induction l with
  | nil => cases h
  | cons a t ih =>
    rcases sortedKeys_cons.mp hs with ⟨ha, ht⟩
    rcases List.mem_cons.mp h with rfl | h
    · simp [mapFindEntry]
    · have hne : ¬ (a.1 = k) := by have := ha _ h; simp at this ⊢; omega
      simp only [mapFindEntry] at ih ⊢
      rw [List.find?_cons_of_neg _ (by simpa using hne)]
      exact ih ht h

theorem find?_sorted_first {p : ℕ × LabelObject → Bool} {l : List (ℕ × LabelObject)}
    (hs : SortedKeys l) {e : ℕ × LabelObject} (h : l.find? p = some e) :
    ∀ a ∈ l, a.1 < e.1 → p a = false := by
  induction l with
  | nil => cases h
  | cons b t ih =>
    rcases sortedKeys_cons.mp hs with ⟨hb, ht⟩
    by_cases hpb : p b
    · rw [List.find?_cons_of_pos _ hpb] at h
      cases h
      intro a ha hlt
      rcases List.mem_cons.mp ha with rfl | ha'
      · omega
      · exact absurd hlt (by have := hb _ ha'; omega)
    · rw [List.find?_cons_of_neg _ hpb] at h
      intro a ha hlt
      rcases List.mem_cons.mp ha with rfl | ha'
      · simpa using hpb
      · exact ih ht h a ha' hlt

/-- The empty map is well formed. -/
theorem wf_fresh (b : ℕ) : WF (fresh b) :=
  ⟨List.Pairwise.nil, fun e he => absurd he (List.not_mem_nil e),
   fun e he => absurd he (List.not_mem_nil e)⟩

theorem wsucc_of_lt {M x : ℕ} (h : x < M) : wsucc M x = x + 1 :=
  Nat.mod_eq_of_lt (by omega)

/-- C1: `PushLabelObject` on the empty container assigns `1` when the
background is `0` and `0` otherwise; on a non-empty container whose largest
key `last` is below the label maximum and with `last + 1` different from
the background, it assigns `last + 1`. -/
theorem pushLabelObject_priority (M : ℕ) (s : LabelMap) (obj : LabelObject) :
    (s.objects = [] →
      pushLabelObject M s obj =
        .ok (addLabelObject s { obj with label := if s.bg = 0 then 1 else 0 })) ∧
    (∀ e es, s.objects = e :: es →
      (es.getLastD e).1 < M → (es.getLastD e).1 + 1 ≠ s.bg →
      pushLabelObject M s obj =
        .ok (addLabelObject s { obj with label := (es.getLastD e).1 + 1 })) := by
  constructor
  · intro h
    simp only [pushLabelObject, h]
  · intro e es h hlt hbg
    simp only [pushLabelObject, h]
    rw [if_pos ⟨by omega, by rw [wsucc_of_lt hlt]; exact hbg⟩, wsucc_of_lt hlt]

theorem pushLabelObject_priority_witness :
    pushLabelObject 255 (fresh 0) (⟨9, {8}⟩ : LabelObject) =
      .ok (addLabelObject (fresh 0) ⟨1, {8}⟩) ∧
    pushLabelObject 255 (fresh 7) (⟨9, {8}⟩ : LabelObject) =
      .ok (addLabelObject (fresh 7) ⟨0, {8}⟩) ∧
    pushLabelObject 255 (⟨0, [(1, ⟨1, {7}⟩)], 0⟩ : LabelMap) (⟨9, {8}⟩ : LabelObject) =
      .ok (addLabelObject (⟨0, [(1, ⟨1, {7}⟩)], 0⟩ : LabelMap) ⟨2, {8}⟩) :=
  ⟨(pushLabelObject_priority 255 (fresh 0) ⟨9, {8}⟩).1 rfl,
   (pushLabelObject_priority 255 (fresh 7) ⟨9, {8}⟩).1 rfl,
   (pushLabelObject_priority 255 ⟨0, [(1, ⟨1, {7}⟩)], 0⟩ ⟨9, {8}⟩).2
     (1, ⟨1, {7}⟩) [] rfl (by decide) (by decide)⟩

/-- C7: `GetLabelObject(label)` fails with `BackgroundLabelAccess` exactly on
the background label, fails with `LabelNotFound` exactly on an absent
non-background label, and returns the stored object otherwise. -/
theorem getLabelObject_spec (s : LabelMap) (lab : ℕ) (hs : SortedKeys s.objects) :
    (getLabelObject s lab = .error .backgroundLabelAccess ↔ lab = s.bg) ∧
    (getLabelObject s lab = .error .labelNotFound ↔
      lab ≠ s.bg ∧ ∀ e ∈ s.objects, e.1 ≠ lab) ∧
    (∀ obj, lab ≠ s.bg → (lab, obj) ∈ s.objects →
      getLabelObject s lab = .ok obj) := by
  refine ⟨?_, ?_, ?_⟩
  · unfold getLabelObject
    split
    · rename_i h
      exact iff_of_true rfl h.symm
    · rename_i h
      constructor
      · intro hcontra
        split at hcontra <;> simp_all
      · intro hlab
        exact absurd hlab.symm h
  · unfold getLabelObject
    split
    · rename_i h
      constructor
      · intro hcontra; simp at hcontra
      · rintro ⟨hlab, -⟩; exact absurd h.symm hlab
    · rename_i h
      split
      · rename_i hfind
        exact iff_of_true rfl
          ⟨fun hc => absurd hc.symm h, mapFindEntry_eq_none.mp hfind⟩
      · rename_i e hfind
        refine iff_of_false (by simp) ?_
        intro ⟨hlab, hall⟩
        have := mapFindEntry_eq_some hfind
        exact hall e this.1 this.2
  · intro obj hlab hmem
    unfold getLabelObject
    rw [if_neg (fun hc => hlab hc.symm), mapFindEntry_of_mem hs hmem]

theorem getLabelObject_spec_witness :
    ((getLabelObject (⟨0, [(1, ⟨1, {7}⟩)], 0⟩ : LabelMap) 0 =
       .error .backgroundLabelAccess ↔ (0 : ℕ) = 0) ∧
     (getLabelObject (⟨0, [(1, ⟨1, {7}⟩)], 0⟩ : LabelMap) 3 =
       .error .labelNotFound ↔ (3 : ℕ) ≠ 0 ∧
         ∀ e ∈ [((1 : ℕ), (⟨1, {7}⟩ : LabelObject))], e.1 ≠ 3) ∧
     getLabelObject (⟨0, [(1, ⟨1, {7}⟩)], 0⟩ : LabelMap) 1 = .ok ⟨1, {7}⟩) :=
  ⟨((getLabelObject_spec ⟨0, [(1, ⟨1, {7}⟩)], 0⟩ 0 (by decide)).1),
   ((getLabelObject_spec ⟨0, [(1, ⟨1, {7}⟩)], 0⟩ 3 (by decide)).2.1),
   ((getLabelObject_spec ⟨0, [(1, ⟨1, {7}⟩)], 0⟩ 1 (by decide)).2.2 ⟨1, {7}⟩
     (by decide) (by decide))⟩

/-- C8: a successful `Graft` makes the target's label-object mapping and
background value equal to the source's, so the label lists coincide. -/
theorem graft_shares_state (A B : LabelMap) :
    ∃ A', graft A (GraftSource.compatible B) = .ok A' ∧
      A'.objects = B.objects ∧ A'.bg = B.bg ∧ getLabels A' = getLabels B :=
  ⟨{ A with objects := B.objects, bg := B.bg }, rfl, rfl, rfl, rfl⟩

/-- C10: `RemoveLabel` on a non-background label never fails; an absent
label leaves the mapping unchanged while `Modified()` still fires. -/
theorem removeLabel_total (s : LabelMap) (lab : ℕ) (h : lab ≠ s.bg) :
    removeLabel s lab =
      .ok { s with objects := mapErase s.objects lab
                 , modCount := s.modCount + 1 } ∧
    ((∀ e ∈ s.objects, e.1 ≠ lab) →
      removeLabel s lab = .ok { s with modCount := s.modCount + 1 }) := by
  have hok : removeLabel s lab =
      .ok { s with objects := mapErase s.objects lab
                 , modCount := s.modCount + 1 } := by
    unfold removeLabel
    rw [if_neg (fun hc => h hc.symm)]
  refine ⟨hok, fun habs => ?_⟩
  rw [hok]
  have : mapErase s.objects lab = s.objects :=
    List.filter_eq_self.mpr (fun e he => by simpa using habs e he)
  rw [this]

theorem removeLabel_total_witness :
    removeLabel (⟨0, [(1, ⟨1, {5}⟩)], 4⟩ : LabelMap) 3 =
      .ok (⟨0, [(1, ⟨1, {5}⟩)], 5⟩ : LabelMap) :=
  (removeLabel_total ⟨0, [(1, ⟨1, {5}⟩)], 4⟩ 3 (by decide)).2 (by decide)

/-- C4 (code bug): on a full label space (maximum `3`, background `0`, keys
`{1, 2, 3}`) the scan finds no gap, yet `PushLabelObject` does not raise
`ContainerFull`: the loop leaves `label` at `lastLabel + 1` (wrapped), the
`label == lastLabel` test is false, and the object is registered under its
own pre-existing label — here `0`, the background value. -/
theorem pushLabelObject_full_no_failure :
    pushLabelObject 3
        (⟨0, [(1, ⟨1, {11}⟩), (2, ⟨2, {12}⟩), (3, ⟨3, {13}⟩)], 0⟩ : LabelMap)
        (⟨0, {9}⟩ : LabelObject) =
      .ok (⟨0, [(0, ⟨0, {9}⟩), (1, ⟨1, {11}⟩), (2, ⟨2, {12}⟩), (3, ⟨3, {13}⟩)], 1⟩ :
        LabelMap) := by
  rfl

/-- C3 counterexample: `AddLabelObject` performs no background check, so
one mutating call from a fresh map stores the background value `0` as a
key. -/
theorem background_becomes_key :
    (0, (⟨0, {5}⟩ : LabelObject)) ∈
      (run 255 (fresh 0) [Op.addLabelObject ⟨0, {5}⟩]).objects ∧
    (run 255 (fresh 0) [Op.addLabelObject ⟨0, {5}⟩]).bg = 0 := by
  decide

theorem ite_objects_eq {c : Prop} [Decidable c] {A B : LabelMap}
    (h : A.objects = B.objects) : (if c then A else B).objects = B.objects := by
  split <;> simp [h]

theorem ite_bg_eq {c : Prop} [Decidable c] {A B : LabelMap}
    (h : A.bg = B.bg) : (if c then A else B).bg = B.bg := by
  split <;> simp [h]

theorem removePixelIt_spec (s : LabelMap) (k idx : ℕ) (emit : Bool)
    (hs : SortedKeys s.objects) (hm : LabelsMatch s.objects) (hb : BgNotKey s) :
    ∃ t, removePixelIt s (mapFindEntry s.objects k) idx emit = .ok t ∧
      t.bg = s.bg ∧
      SortedKeys t.objects ∧ LabelsMatch t.objects ∧ BgNotKey t ∧
      (∀ e ∈ t.objects, e.1 = k → idx ∉ e.2.region) ∧
      (∀ e ∈ t.objects, ∃ v, (e.1, v) ∈ s.objects ∧ e.2.region ⊆ v.region) ∧
      (AllNonEmpty s.objects → AllNonEmpty t.objects) ∧
      (∀ v, (k, v) ∈ s.objects → idx ∈ v.region → v.region.erase idx = ∅ →
        ∀ e ∈ t.objects, e.1 ≠ k) := by
  rcases hfind : mapFindEntry s.objects k with - | e
  · -- end iterator: the key is absent, nothing happens
    refine ⟨s, rfl, rfl, hs, hm, hb, ?_, ?_, fun h => h, ?_⟩
    · intro e he hek
      exact absurd hek (mapFindEntry_eq_none.mp hfind e he)
    · exact fun e he => ⟨e.2, he, le_refl _⟩
    · intro v hv _ _
      exact absurd rfl (mapFindEntry_eq_none.mp hfind (k, v) hv)
  · obtain ⟨hmem, hkey⟩ := mapFindEntry_eq_some hfind
    obtain ⟨k0, obj⟩ := e
    simp only at hkey
    rcases hkey with rfl
    have hobjlab : obj.label = k0 := hm _ hmem
    have hkbg : k0 ≠ s.bg := hb _ hmem
    simp only [removePixelIt]
    by_cases hin : idx ∈ obj.region
    · rw [if_pos hin]
      have hsub : (obj.region.erase idx) ⊆ obj.region := Finset.erase_subset _ _
      by_cases hemp : obj.region.erase idx = ∅
      · rw [if_pos hemp]
        simp only [removeLabelObject, removeLabel, hobjlab]
        rw [if_neg (fun hc => hkbg hc.symm)]
        simp only [Except.map]
        set obj' : LabelObject := ⟨k0, obj.region.erase idx⟩ with hobj'
        refine ⟨_, rfl, by rw [ite_bg_eq (by rfl)], ?_, ?_, ?_, ?_, ?_, ?_, ?_⟩
        · rw [ite_objects_eq (by rfl)]
          exact sortedKeys_mapErase (sortedKeys_mapInsert hs k0 obj') k0
        · rw [ite_objects_eq (by rfl)]
          intro e he
          rcases mem_mapErase.mp he with ⟨he', hek⟩
          rcases (mem_mapInsert hs k0 obj' e).mp he' with rfl | ⟨he'', -⟩
          · exact absurd rfl hek
          · exact hm _ he''
        · intro e he
          rw [ite_objects_eq (by rfl)] at he
          rw [ite_bg_eq (by rfl)]
          rcases mem_mapErase.mp he with ⟨he', hek⟩
          rcases (mem_mapInsert hs k0 obj' e).mp he' with rfl | ⟨he'', -⟩
          · exact absurd rfl hek
          · exact hb _ he''
        · rw [ite_objects_eq (by rfl)]
          intro e he hek
          rcases mem_mapErase.mp he with ⟨-, hek'⟩
          exact absurd hek hek'
        · rw [ite_objects_eq (by rfl)]
          intro e he
          rcases mem_mapErase.mp he with ⟨he', hek⟩
          rcases (mem_mapInsert hs k0 obj' e).mp he' with rfl | ⟨he'', -⟩
          · exact absurd rfl hek
          · exact ⟨e.2, he'', le_refl _⟩
        · rw [ite_objects_eq (by rfl)]
          intro hne e he
          rcases mem_mapErase.mp he with ⟨he', hek⟩
          rcases (mem_mapInsert hs k0 obj' e).mp he' with rfl | ⟨he'', -⟩
          · exact absurd rfl hek
          · exact hne _ he''
        · rw [ite_objects_eq (by rfl)]
          intro v hv hvin hverase e he
          exact (mem_mapErase.mp he).2
      · rw [if_neg hemp]
        simp only [Except.map]
        set obj' : LabelObject := ⟨k0, obj.region.erase idx⟩ with hobj'
        have hins : mapInsert s.objects k0 { obj with region := obj.region.erase idx } =
            mapInsert s.objects k0 obj' := by
          rw [hobj', hobjlab]
        refine ⟨_, rfl, by rw [ite_bg_eq (by rfl)], ?_, ?_, ?_, ?_, ?_, ?_, ?_⟩
        · rw [ite_objects_eq (by rfl), hins]
          exact sortedKeys_mapInsert hs k0 obj'
        · rw [ite_objects_eq (by rfl), hins]
          intro e he
          rcases (mem_mapInsert hs k0 obj' e).mp he with rfl | ⟨he', -⟩
          · rfl
          · exact hm _ he'
        · intro e he
          rw [ite_objects_eq (by rfl), hins] at he
          rw [ite_bg_eq (by rfl)]
          rcases (mem_mapInsert hs k0 obj' e).mp he with rfl | ⟨he', -⟩
          · exact hkbg
          · exact hb _ he'
        · rw [ite_objects_eq (by rfl), hins]
          intro e he hek
          rcases (mem_mapInsert hs k0 obj' e).mp he with rfl | ⟨-, hek'⟩
          · exact Finset.not_mem_erase idx obj.region
          · exact absurd hek hek'
        · rw [ite_objects_eq (by rfl), hins]
          intro e he
          rcases (mem_mapInsert hs k0 obj' e).mp he with rfl | ⟨he', -⟩
          · exact ⟨obj, hmem, hsub⟩
          · exact ⟨e.2, he', le_refl _⟩
        · rw [ite_objects_eq (by rfl), hins]
          intro hne e he
          rcases (mem_mapInsert hs k0 obj' e).mp he with rfl | ⟨he', -⟩
          · exact hemp
          · exact hne _ he'
        · rw [ite_objects_eq (by rfl)]
          intro v hv hvin hverase
          have hvo : v = obj := by
            have := sortedKeys_key_unique hs hv hmem (by rfl)
            exact congrArg Prod.snd this
          subst hvo
          exact absurd hverase hemp
    · rw [if_neg hin]
      refine ⟨s, rfl, rfl, hs, hm, hb, ?_, ?_, fun h => h, ?_⟩
      · intro e he hek
        have : e = (k0, obj) := sortedKeys_key_unique hs he hmem (by simpa using hek)
        rw [this]
        exact hin
      · exact fun e he => ⟨e.2, he, le_refl _⟩
      · intro v hv hvin hverase
        have hvo : v = obj := by
          have := sortedKeys_key_unique hs hv hmem (by rfl)
          exact congrArg Prod.snd this
        subst hvo
        exact absurd hvin hin

theorem setPixelGo_spec (idx lab : ℕ) :
    ∀ (ks : List ℕ) (s : LabelMap) (nl : Bool),
      SortedKeys s.objects → LabelsMatch s.objects → BgNotKey s →
      (∀ e ∈ s.objects, e.1 ∉ ks → idx ∈ e.2.region → e.1 = lab ∧ lab ≠ s.bg) →
      ∃ t, setPixelGo idx lab ks s nl = .ok t ∧
        t.bg = s.bg ∧
        SortedKeys t.objects ∧ LabelsMatch t.objects ∧ BgNotKey t ∧
        (∀ e ∈ t.objects, idx ∈ e.2.region → e.1 = lab ∧ lab ≠ s.bg) ∧
        (∀ q, q ≠ idx → ∀ e ∈ t.objects, q ∈ e.2.region →
          ∃ v, (e.1, v) ∈ s.objects ∧ q ∈ v.region) ∧
        (AllNonEmpty s.objects → AllNonEmpty t.objects) := by
  intro ks
  induction ks with
  | nil =>
    intro s nl hs hm hb hproc
    have hproc' : ∀ e ∈ s.objects, idx ∈ e.2.region → e.1 = lab ∧ lab ≠ s.bg :=
      fun e he hin => hproc e he (List.not_mem_nil _) hin
    cases nl with
    | false =>
      exact ⟨s, rfl, rfl, hs, hm, hb, hproc',
        fun q hq e he hqin => ⟨e.2, he, hqin⟩, fun h => h⟩
    | true =>
      have hstep : setPixelGo idx lab [] s true = .ok (addPixelIt s none idx lab) := rfl
      have hadd : addPixelIt s none idx lab =
          if lab = s.bg then s else addLabelObject s ⟨lab, {idx}⟩ := rfl
      rw [hstep, hadd]
      by_cases hbg : lab = s.bg
      · rw [if_pos hbg]
        exact ⟨s, rfl, rfl, hs, hm, hb, hproc',
          fun q hq e he hqin => ⟨e.2, he, hqin⟩, fun h => h⟩
      · rw [if_neg hbg]
        simp only [addLabelObject]
        refine ⟨_, rfl, rfl, sortedKeys_mapInsert hs lab _, ?_, ?_, ?_, ?_, ?_⟩
        · intro e he
          rcases (mem_mapInsert hs lab _ e).mp he with rfl | ⟨he', -⟩
          · rfl
          · exact hm _ he'
        · intro e he
          rcases (mem_mapInsert hs lab _ e).mp he with rfl | ⟨he', -⟩
          · exact hbg
          · exact hb _ he'
        · intro e he hin
          rcases (mem_mapInsert hs lab _ e).mp he with rfl | ⟨he', hne⟩
          · exact ⟨rfl, hbg⟩
          · exact absurd (hproc' e he' hin).1 hne
        · intro q hq e he hqin
          rcases (mem_mapInsert hs lab _ e).mp he with rfl | ⟨he', -⟩
          · exact absurd (Finset.mem_singleton.mp hqin) hq
          · exact ⟨e.2, he', hqin⟩
        · intro hne e he
          rcases (mem_mapInsert hs lab _ e).mp he with rfl | ⟨he', -⟩
          · exact Finset.singleton_ne_empty idx
          · exact hne _ he'
  | cons k ks ih =>
    intro s nl hs hm hb hproc
    simp only [setPixelGo]
    by_cases hk : k ≠ lab
    · rw [if_pos hk]
      obtain ⟨t1, heq, hbg1, hs1, hm1, hb1, hknotin, hback, hnem1, -⟩ :=
        removePixelIt_spec s k idx (lab == s.bg) hs hm hb
      rw [heq]
      have hproc1 : ∀ e ∈ t1.objects, e.1 ∉ ks → idx ∈ e.2.region →
          e.1 = lab ∧ lab ≠ t1.bg := by
        intro e he hnot hin
        by_cases hek : e.1 = k
        · exact absurd hin (hknotin e he hek)
        · obtain ⟨v, hv, hsubv⟩ := hback e he
          have : e.1 ∉ k :: ks := by
            intro hc
            rcases List.mem_cons.mp hc with hc | hc
            · exact hek hc
            · exact hnot hc
          obtain ⟨h1, h2⟩ := hproc (e.1, v) hv (by simpa using this) (hsubv hin)
          exact ⟨h1, by rw [hbg1]; exact h2⟩
      obtain ⟨t, ht, htbg, hts, htm, htb, hti, htq, htne⟩ :=
        ih t1 nl hs1 hm1 hb1 hproc1
      refine ⟨t, ht, htbg.trans hbg1, hts, htm, htb, ?_, ?_, fun h => htne (hnem1 h)⟩
      · intro e he hin
        obtain ⟨h1, h2⟩ := hti e he hin
        exact ⟨h1, by rw [← hbg1]; exact h2⟩
      · intro q hq e he hqin
        obtain ⟨v1, hv1, hqv1⟩ := htq q hq e he hqin
        obtain ⟨v, hv, hsubv⟩ := hback (e.1, v1) hv1
        exact ⟨v, hv, hsubv hqv1⟩
    · rw [if_neg hk]
      push_neg at hk
      subst hk
      by_cases hbg : k = s.bg
      · have hred : addPixelIt s (mapFindEntry s.objects k) idx k = s := by
          simp only [addPixelIt]
          rw [if_pos hbg]
        rw [hred]
        refine ih s false hs hm hb ?_
        intro e he hnot hin
        by_cases hek : e.1 = k
        · exact absurd (hbg ▸ hek) (hb e he)
        · refine hproc e he ?_ hin
          intro hc
          rcases List.mem_cons.mp hc with hc | hc
          · exact hek hc
          · exact hnot hc
      · rcases hfind : mapFindEntry s.objects k with - | e0
        · have hred : addPixelIt s none idx k =
              addLabelObject s ⟨k, {idx}⟩ := by
            simp only [addPixelIt]
            rw [if_neg hbg]
          rw [hred]
          simp only [addLabelObject]
          have hs' := sortedKeys_mapInsert hs k (⟨k, {idx}⟩ : LabelObject)
          have hm' : LabelsMatch (mapInsert s.objects k ⟨k, {idx}⟩) := by
            intro e he
            rcases (mem_mapInsert hs k _ e).mp he with rfl | ⟨he', -⟩
            · rfl
            · exact hm _ he'
          have hb' : BgNotKey { s with
              objects := mapInsert s.objects k ⟨k, {idx}⟩
              , modCount := s.modCount + 1 } := by
            intro e he
            rcases (mem_mapInsert hs k _ e).mp he with rfl | ⟨he', -⟩
            · exact hbg
            · exact hb _ he'
          have hproc' : ∀ e ∈ (mapInsert s.objects k (⟨k, {idx}⟩ : LabelObject)),
              e.1 ∉ ks → idx ∈ e.2.region → e.1 = k ∧ k ≠ s.bg := by
            intro e he hnot hin
            rcases (mem_mapInsert hs k _ e).mp he with rfl | ⟨he', hne⟩
            · exact ⟨rfl, hbg⟩
            · refine hproc e he' ?_ hin
              intro hc
              rcases List.mem_cons.mp hc with hc | hc
              · exact hne hc
              · exact hnot hc
          obtain ⟨t, ht, htbg, hts, htm, htb, hti, htq, htne⟩ :=
            ih { s with objects := mapInsert s.objects k ⟨k, {idx}⟩
                      , modCount := s.modCount + 1 } false hs' hm' hb' hproc'
          refine ⟨t, ht, htbg, hts, htm, htb, ?_, ?_, ?_⟩
          · intro e he hin
            obtain ⟨h1, h2⟩ := hti e he hin
            exact ⟨h1, h2⟩
          · intro q hq e he hqin
            obtain ⟨v1, hv1, hqv1⟩ := htq q hq e he hqin
            rcases (mem_mapInsert hs k _ (e.1, v1)).mp hv1 with hv1' | ⟨hv1', -⟩
            · rw [Prod.ext_iff] at hv1'
              obtain ⟨-, h2⟩ := hv1'
              simp only at h2
              rw [h2] at hqv1
              exact absurd (Finset.mem_singleton.mp hqv1) hq
            · exact ⟨v1, hv1', hqv1⟩
          · intro hne
            refine htne ?_
            intro e he
            rcases (mem_mapInsert hs k _ e).mp he with rfl | ⟨he', -⟩
            · exact Finset.singleton_ne_empty idx
            · exact hne _ he'
        · obtain ⟨hmem0, hkey0⟩ := mapFindEntry_eq_some hfind
          obtain ⟨k, obj⟩ := e0
          simp only at hkey0
          rcases hkey0 with rfl
          have hred : addPixelIt s (some (k, obj)) idx k =
              { s with
                  objects := mapInsert s.objects k
                      (⟨obj.label, insert idx obj.region⟩ : LabelObject),
                  modCount := s.modCount + 1 } := by
            simp only [addPixelIt]
            rw [if_neg hbg]
          rw [hred]
          have hobjlab : obj.label = k := hm _ hmem0
          set obj' : LabelObject := (⟨obj.label, insert idx obj.region⟩ : LabelObject)
            with hobj'
          have hs' := sortedKeys_mapInsert hs k obj'
          have hm' : LabelsMatch (mapInsert s.objects k obj') := by
            intro e he
            rcases (mem_mapInsert hs k _ e).mp he with rfl | ⟨he', -⟩
            · exact hobjlab
            · exact hm _ he'
          have hb' : BgNotKey { s with
              objects := mapInsert s.objects k obj'
              , modCount := s.modCount + 1 } := by
            intro e he
            rcases (mem_mapInsert hs k _ e).mp he with rfl | ⟨he', -⟩
            · exact hbg
            · exact hb _ he'
          have hproc' : ∀ e ∈ mapInsert s.objects k obj',
              e.1 ∉ ks → idx ∈ e.2.region → e.1 = k ∧ k ≠ s.bg := by
            intro e he hnot hin
            rcases (mem_mapInsert hs k _ e).mp he with rfl | ⟨he', hne⟩
            · exact ⟨rfl, hbg⟩
            · refine hproc e he' ?_ hin
              intro hc
              rcases List.mem_cons.mp hc with hc | hc
              · exact hne hc
              · exact hnot hc
          obtain ⟨t, ht, htbg, hts, htm, htb, hti, htq, htne⟩ :=
            ih { s with objects := mapInsert s.objects k obj'
                      , modCount := s.modCount + 1 } false hs' hm' hb' hproc'
          refine ⟨t, ht, htbg, hts, htm, htb, hti, ?_, ?_⟩
          · intro q hq e he hqin
            obtain ⟨v1, hv1, hqv1⟩ := htq q hq e he hqin
            rcases (mem_mapInsert hs k _ (e.1, v1)).mp hv1 with hv1' | ⟨hv1', -⟩
            · rw [Prod.ext_iff] at hv1'
              obtain ⟨h1, h2⟩ := hv1'
              simp only at h1 h2
              rw [h2] at hqv1
              rw [hobj'] at hqv1
              simp only at hqv1
              rcases Finset.mem_insert.mp hqv1 with rfl | hqv1'
              · exact absurd rfl hq
              · exact ⟨obj, by rw [h1]; exact hmem0, hqv1'⟩
            · exact ⟨v1, hv1', hqv1⟩
          · intro hne
            refine htne ?_
            intro e he
            rcases (mem_mapInsert hs k _ e).mp he with rfl | ⟨he', -⟩
            · rw [hobj']
              simp only [ne_eq]
              exact Finset.insert_ne_empty idx obj.region
            · exact hne _ he'

theorem setPixel_spec (s : LabelMap) (idx lab : ℕ)
    (hs : SortedKeys s.objects) (hm : LabelsMatch s.objects) (hb : BgNotKey s) :
    ∃ t, setPixel s idx lab = .ok t ∧ t.bg = s.bg ∧
      SortedKeys t.objects ∧ LabelsMatch t.objects ∧ BgNotKey t ∧
      (∀ e ∈ t.objects, idx ∈ e.2.region → e.1 = lab ∧ lab ≠ s.bg) ∧
      (∀ q, q ≠ idx → ∀ e ∈ t.objects, q ∈ e.2.region →
        ∃ v, (e.1, v) ∈ s.objects ∧ q ∈ v.region) ∧
      (AllNonEmpty s.objects → AllNonEmpty t.objects) := by
  refine setPixelGo_spec idx lab (keysOf s.objects) s true hs hm hb ?_
  intro e he hnot
  exact absurd (List.mem_map_of_mem Prod.fst he) hnot

theorem setPixel_preserves_atMostOne (s : LabelMap) (idx lab : ℕ)
    (hs : SortedKeys s.objects) (hm : LabelsMatch s.objects) (hb : BgNotKey s)
    (hA : ∀ q, AtMostOne s q) :
    ∀ q, AtMostOne (exceptState (setPixel s idx lab)) q := by
  obtain ⟨t, ht, -, -, -, -, hti, htq, -⟩ := setPixel_spec s idx lab hs hm hb
  rw [ht]
  intro q e1 he1 e2 he2 h1 h2
  by_cases hq : q = idx
  · subst hq
    exact ((hti e1 he1 h1).1).trans ((hti e2 he2 h2).1).symm
  · obtain ⟨v1, hv1, hq1⟩ := htq q hq e1 he1 h1
    obtain ⟨v2, hv2, hq2⟩ := htq q hq e2 he2 h2
    exact hA q (e1.1, v1) hv1 (e2.1, v2) hv2 hq1 hq2

theorem setPixel_run_inv (M : ℕ) :
    ∀ (ps : List (ℕ × ℕ)) (s : LabelMap),
      SortedKeys s.objects → LabelsMatch s.objects → BgNotKey s →
      (∀ q, AtMostOne s q) →
      SortedKeys (run M s (ps.map (fun x => Op.setPixel x.1 x.2))).objects ∧
      LabelsMatch (run M s (ps.map (fun x => Op.setPixel x.1 x.2))).objects ∧
      BgNotKey (run M s (ps.map (fun x => Op.setPixel x.1 x.2))) ∧
      (∀ q, AtMostOne (run M s (ps.map (fun x => Op.setPixel x.1 x.2))) q) := by
  intro ps
  induction ps with
  | nil => exact fun s h1 h2 h3 h4 => ⟨h1, h2, h3, h4⟩
  | cons p ps ih =>
    intro s h1 h2 h3 h4
    obtain ⟨t, ht, htbg, hts, htm, htb, -, -, -⟩ := setPixel_spec s p.1 p.2 h1 h2 h3
    have hstep : step M s (Op.setPixel p.1 p.2) = t := by
      simp only [step, ht, exceptState]
    have hA : ∀ q, AtMostOne t q := by
      have := setPixel_preserves_atMostOne s p.1 p.2 h1 h2 h3 h4
      rw [ht] at this
      exact this
    simpa only [List.map_cons, run, hstep] using ih t hts htm htb hA

/-- C2: along mutation sequences applied only through `SetPixel`, at most
one stored `LabelObject` owns any given position, and immediately after a
`SetPixel(idx, lab)` call no stored object with a label other than `lab`
owns `idx`. -/
theorem setPixel_disjointness (M b : ℕ) (ps : List (ℕ × ℕ)) (q idx lab : ℕ) :
    AtMostOne (run M (fresh b) (ps.map (fun x => Op.setPixel x.1 x.2))) q ∧
    (∀ e ∈ (exceptState (setPixel
        (run M (fresh b) (ps.map (fun x => Op.setPixel x.1 x.2))) idx lab)).objects,
      e.1 ≠ lab → idx ∉ e.2.region) := by
  obtain ⟨h1, h2, h3, h4⟩ := setPixel_run_inv M ps (fresh b)
    List.Pairwise.nil (fun e he => absurd he (List.not_mem_nil e))
    (fun e he => absurd he (List.not_mem_nil e))
    (fun q e1 he1 => absurd he1 (List.not_mem_nil e1))
  refine ⟨h4 q, ?_⟩
  obtain ⟨t, ht, -, -, -, -, hti, -, -⟩ :=
    setPixel_spec (run M (fresh b) (ps.map (fun x => Op.setPixel x.1 x.2))) idx lab
      h1 h2 h3
  rw [ht]
  intro e he hne hin
  exact hne (hti e he hin).1

theorem setPixel_disjointness_witness :
    AtMostOne (run 255 (fresh 0) ([((5 : ℕ), (1 : ℕ)), (6, 3)].map
      (fun x => Op.setPixel x.1 x.2))) 5 ∧
    (7 : ℕ) ∉ ((⟨1, {5}⟩ : LabelObject)).region :=
  ⟨(setPixel_disjointness 255 0 [(5, 1), (6, 3)] 5 7 3).1,
   (setPixel_disjointness 255 0 [(5, 1), (6, 3)] 5 7 3).2
     (1, ⟨1, {5}⟩) (by decide) (by decide)⟩

theorem wsucc_ne_self (M : ℕ) (hM : 1 ≤ M) (x : ℕ) : wsucc M x ≠ x := by
  unfold wsucc
  rcases Nat.lt_trichotomy x M with h | rfl | h
  · rw [Nat.mod_eq_of_lt (by omega)]
    omega
  · rw [Nat.mod_self]
    omega
  · have : (x + 1) % (M + 1) < M + 1 := Nat.mod_lt _ (by omega)
    omega

theorem scanLoop_break_ne (M bg : ℕ) (hM : 1 ≤ M) :
    ∀ (ks : List ℕ) (label l fin : ℕ),
      scanLoop M bg ks label = (some l, fin) → l ≠ bg := by
  intro ks
  induction ks with
  | nil =>
    intro label l fin h
    simp [scanLoop] at h
  | cons k ks ih =>
    intro label l fin h
    simp only [scanLoop] at h
    by_cases hlb : label = bg
    · rw [if_pos hlb] at h
      by_cases hbk : wsucc M label ≠ k
      · rw [if_pos hbk, Prod.mk.injEq] at h
        rcases Option.some.inj h.1 with rfl
        rw [hlb]
        exact wsucc_ne_self M hM bg
      · rw [if_neg hbk] at h
        exact ih _ _ _ h
    · rw [if_neg hlb] at h
      by_cases hbk : label ≠ k
      · rw [if_pos hbk, Prod.mk.injEq] at h
        rcases Option.some.inj h.1 with rfl
        exact hlb
      · rw [if_neg hbk] at h
        exact ih _ _ _ h

theorem addLabelObject_preserves (s : LabelMap) (obj : LabelObject)
    (hs : SortedKeys s.objects) (hm : LabelsMatch s.objects) (hb : BgNotKey s)
    (hne : AllNonEmpty s.objects) (hl : obj.label ≠ s.bg) (hr : obj.region ≠ ∅) :
    SortedKeys (addLabelObject s obj).objects ∧
    LabelsMatch (addLabelObject s obj).objects ∧
    BgNotKey (addLabelObject s obj) ∧
    AllNonEmpty (addLabelObject s obj).objects := by
  simp only [addLabelObject]
  refine ⟨sortedKeys_mapInsert hs obj.label obj, ?_, ?_, ?_⟩
  · intro e he
    rcases (mem_mapInsert hs obj.label obj e).mp he with rfl | ⟨he', -⟩
    · rfl
    · exact hm _ he'
  · intro e he
    rcases (mem_mapInsert hs obj.label obj e).mp he with rfl | ⟨he', -⟩
    · exact hl
    · exact hb _ he'
  · intro e he
    rcases (mem_mapInsert hs obj.label obj e).mp he with rfl | ⟨he', -⟩
    · exact hr
    · exact hne _ he'

theorem pushLabelObject_cases (M : ℕ) (s : LabelMap) (obj : LabelObject)
    (hM : 1 ≤ M) (hlab : obj.label ≠ s.bg) :
    pushLabelObject M s obj = .error (.containerFull, s) ∨
    ∃ l, l ≠ s.bg ∧
      pushLabelObject M s obj = .ok (addLabelObject s ⟨l, obj.region⟩) := by
  rcases hobjs : s.objects with - | ⟨e, es⟩ <;> simp only [pushLabelObject, hobjs]
  · refine Or.inr ⟨if s.bg = 0 then 1 else 0, ?_, rfl⟩
    by_cases hz : s.bg = 0
    · rw [if_pos hz, hz]
      omega
    · rw [if_neg hz]
      exact fun hc => hz hc.symm
  · split
    · rename_i hcond
      exact Or.inr ⟨_, fun hc => hcond.2 hc, rfl⟩
    · split
      · rename_i hcond
        exact Or.inr ⟨_, fun hc => hcond.2.2 hc, rfl⟩
      · split
        · rename_i hcond
          exact Or.inr ⟨_, fun hc => hcond.2 hc, rfl⟩
        · rcases hscan : scanLoop M s.bg (keysOf (e :: es)) e.1 with ⟨found, fin⟩
          simp only [hscan]
          split
          · exact Or.inl rfl
          · rcases found with - | l
            · exact Or.inr ⟨obj.label, hlab, rfl⟩
            · exact Or.inr ⟨l, scanLoop_break_ne M s.bg hM _ _ _ _ hscan, rfl⟩

theorem addPixelIt_preserves (s : LabelMap) (idx lab : ℕ)
    (hs : SortedKeys s.objects) (hm : LabelsMatch s.objects) (hb : BgNotKey s)
    (hne : AllNonEmpty s.objects) :
    SortedKeys (addPixelIt s (mapFindEntry s.objects lab) idx lab).objects ∧
    LabelsMatch (addPixelIt s (mapFindEntry s.objects lab) idx lab).objects ∧
    BgNotKey (addPixelIt s (mapFindEntry s.objects lab) idx lab) ∧
    AllNonEmpty (addPixelIt s (mapFindEntry s.objects lab) idx lab).objects := by
  by_cases hbg : lab = s.bg
  · have : addPixelIt s (mapFindEntry s.objects lab) idx lab = s := by
      simp only [addPixelIt]
      rw [if_pos hbg]
    rw [this]
    exact ⟨hs, hm, hb, hne⟩
  · rcases hfind : mapFindEntry s.objects lab with - | e0
    · have : addPixelIt s none idx lab = addLabelObject s ⟨lab, {idx}⟩ := by
        simp only [addPixelIt]
        rw [if_neg hbg]
      rw [this]
      exact addLabelObject_preserves s ⟨lab, {idx}⟩ hs hm hb hne hbg
        (Finset.singleton_ne_empty idx)
    · obtain ⟨hmem0, hkey0⟩ := mapFindEntry_eq_some hfind
      obtain ⟨k0, obj⟩ := e0
      simp only at hkey0
      rcases hkey0 with rfl
      have hobjlab : obj.label = k0 := hm _ hmem0
      have hred : addPixelIt s (some (k0, obj)) idx k0 =
          { s with
              objects := mapInsert s.objects k0
                  (⟨obj.label, insert idx obj.region⟩ : LabelObject),
              modCount := s.modCount + 1 } := by
        simp only [addPixelIt]
        rw [if_neg hbg]
      rw [hred]
      refine ⟨sortedKeys_mapInsert hs k0 _, ?_, ?_, ?_⟩
      · intro e he
        rcases (mem_mapInsert hs k0 _ e).mp he with rfl | ⟨he', -⟩
        · exact hobjlab
        · exact hm _ he'
      · intro e he
        rcases (mem_mapInsert hs k0 _ e).mp he with rfl | ⟨he', -⟩
        · exact hbg
        · exact hb _ he'
      · intro e he
        rcases (mem_mapInsert hs k0 _ e).mp he with rfl | ⟨he', -⟩
        · exact Finset.insert_ne_empty idx obj.region
        · exact hne _ he'

theorem lineRun_ne_empty (idx len : ℕ) (h : 0 < len) : lineRun idx len ≠ ∅ := by
  unfold lineRun
  have : (Finset.range len).Nonempty := Finset.nonempty_range_iff.mpr (by omega)
  exact Finset.nonempty_iff_ne_empty.mp (this.image _)

theorem step_preserves_inv (M : ℕ) (s : LabelMap) (op : Op) (hM : 1 ≤ M)
    (hs : SortedKeys s.objects) (hm : LabelsMatch s.objects) (hb : BgNotKey s)
    (hne : AllNonEmpty s.objects) (hsafe : SafeOp M s op) :
    SortedKeys (step M s op).objects ∧ LabelsMatch (step M s op).objects ∧
      BgNotKey (step M s op) ∧ AllNonEmpty (step M s op).objects := by
  cases op with
  | addLabelObject obj =>
    exact addLabelObject_preserves s obj hs hm hb hne hsafe.1 hsafe.2
  | pushLabelObject obj =>
    obtain ⟨-, hl, hr⟩ := hsafe
    rcases pushLabelObject_cases M s obj hM hl with hc | ⟨l, hlne, hc⟩ <;>
      simp only [step, hc, exceptState]
    · exact ⟨hs, hm, hb, hne⟩
    · exact addLabelObject_preserves s ⟨l, obj.region⟩ hs hm hb hne hlne hr
  | addPixel idx lab =>
    simp only [step, addPixel]
    by_cases hbg : lab = s.bg
    · rw [if_pos hbg]
      exact ⟨hs, hm, hb, hne⟩
    · rw [if_neg hbg]
      exact addPixelIt_preserves s idx lab hs hm hb hne
  | setPixel idx lab =>
    obtain ⟨t, ht, -, hts, htm, htb, -, -, htne⟩ := setPixel_spec s idx lab hs hm hb
    simp only [step, ht, exceptState]
    exact ⟨hts, htm, htb, htne hne⟩
  | setLine idx len lab =>
    simp only [step, setLine]
    by_cases hbg : lab = s.bg
    · rw [if_pos hbg]
      exact ⟨hs, hm, hb, hne⟩
    · rw [if_neg hbg]
      have hlen : 0 < len := by
        rcases hsafe with hc | hc
        · exact absurd hc hbg
        · exact hc
      rcases hfind : mapFindEntry s.objects lab with - | e0
      · exact addLabelObject_preserves s ⟨lab, lineRun idx len⟩ hs hm hb hne hbg
          (lineRun_ne_empty idx len hlen)
      · obtain ⟨hmem0, hkey0⟩ := mapFindEntry_eq_some hfind
        obtain ⟨k0, obj⟩ := e0
        simp only at hkey0
        rcases hkey0 with rfl
        have hobjlab : obj.label = k0 := hm _ hmem0
        refine ⟨sortedKeys_mapInsert hs k0 _, ?_, ?_, ?_⟩
        · intro e he
          rcases (mem_mapInsert hs k0 _ e).mp he with rfl | ⟨he', -⟩
          · exact hobjlab
          · exact hm _ he'
        · intro e he
          rcases (mem_mapInsert hs k0 _ e).mp he with rfl | ⟨he', -⟩
          · exact hbg
          · exact hb _ he'
        · intro e he
          rcases (mem_mapInsert hs k0 _ e).mp he with rfl | ⟨he', -⟩
          · intro hc
            exact hne _ hmem0 (by
              have := Finset.union_eq_empty.mp hc
              exact this.1)
          · exact hne _ he'
  | removePixel idx lab =>
    simp only [step, removePixel]
    by_cases hbg : lab = s.bg
    · rw [if_pos hbg]
      exact ⟨hs, hm, hb, hne⟩
    · rw [if_neg hbg]
      obtain ⟨t, ht, -, hts, htm, htb, -, -, htne, -⟩ :=
        removePixelIt_spec s lab idx true hs hm hb
      simp only [ht, exceptState]
      exact ⟨hts, htm, htb, htne hne⟩
  | removeLabel lab =>
    simp only [step, removeLabel]
    by_cases hbg : s.bg = lab
    · rw [if_pos hbg]
      exact ⟨hs, hm, hb, hne⟩
    · rw [if_neg hbg]
      simp only [exceptState]
      refine ⟨sortedKeys_mapErase hs lab, ?_, ?_, ?_⟩
      · exact fun e he => hm _ (mem_mapErase.mp he).1
      · exact fun e he => hb _ (mem_mapErase.mp he).1
      · exact fun e he => hne _ (mem_mapErase.mp he).1
  | clearLabels =>
    simp only [step, clearLabels]
    split
    · exact ⟨hs, hm, hb, hne⟩
    · exact ⟨List.Pairwise.nil, fun e he => absurd he (List.not_mem_nil e),
        fun e he => absurd he (List.not_mem_nil e),
        fun e he => absurd he (List.not_mem_nil e)⟩
  | graft src =>
    cases src with
    | compatible b =>
      obtain ⟨⟨hbs, hbm, hbb⟩, hbne⟩ := hsafe
      exact ⟨hbs, hbm, fun e he => hbb e he, hbne⟩
    | incompatible =>
      exact ⟨hs, hm, hb, hne⟩

theorem run_preserves_inv (M : ℕ) (hM : 1 ≤ M) :
    ∀ (ops : List Op) (s : LabelMap),
      SortedKeys s.objects → LabelsMatch s.objects → BgNotKey s →
      AllNonEmpty s.objects → SafeTrace M s ops →
      SortedKeys (run M s ops).objects ∧ LabelsMatch (run M s ops).objects ∧
        BgNotKey (run M s ops) ∧ AllNonEmpty (run M s ops).objects := by
  intro ops
  induction ops with
  | nil => exact fun s h1 h2 h3 h4 _ => ⟨h1, h2, h3, h4⟩
  | cons op ops ih =>
    intro s h1 h2 h3 h4 hsafe
    obtain ⟨hop, htrace⟩ := hsafe
    obtain ⟨g1, g2, g3, g4⟩ := step_preserves_inv M s op hM h1 h2 h3 h4 hop
    simpa only [run] using ih (step M s op) g1 g2 g3 g4 htrace

/-- C3 (amended): along any sequence of mutating calls from a fresh map in
which direct insertions (`AddLabelObject`, and `PushLabelObject`'s final
registration) carry a non-background label and a non-empty region,
`SetLine` never creates an object from an empty run, and `Graft` sources
are themselves invariant, the background value is never a key. -/
theorem background_never_key (M b : ℕ) (ops : List Op) (hM : 1 ≤ M)
    (hsafe : SafeTrace M (fresh b) ops) :
    BgNotKey (run M (fresh b) ops) :=
  (run_preserves_inv M hM ops (fresh b) List.Pairwise.nil
    (fun e he => absurd he (List.not_mem_nil e))
    (fun e he => absurd he (List.not_mem_nil e))
    (fun e he => absurd he (List.not_mem_nil e)) hsafe).2.2.1

theorem background_never_key_witness :
    1 ≤ 255 ∧
    SafeTrace 255 (fresh 0) [Op.addPixel 5 1, Op.setPixel 6 2, Op.removeLabel 1] ∧
    BgNotKey (run 255 (fresh 0)
      [Op.addPixel 5 1, Op.setPixel 6 2, Op.removeLabel 1]) :=
  ⟨by decide, by decide,
   background_never_key 255 0 [Op.addPixel 5 1, Op.setPixel 6 2, Op.removeLabel 1]
     (by decide) (by decide)⟩

/-- C9: the position overload of `GetLabelObject` fails with
`PositionNotFound` exactly when no stored object owns the position (also
for background positions); on success it returns the first owner in
ascending label order, and that owner never carries the background
label. -/
theorem getLabelObjectByIndex_spec (s : LabelMap) (idx : ℕ)
    (hs : SortedKeys s.objects) (hm : LabelsMatch s.objects) (hb : BgNotKey s) :
    ((getLabelObjectByIndex s idx = .error .positionNotFound) ↔
      ∀ e ∈ s.objects, idx ∉ e.2.region) ∧
    (∀ o, getLabelObjectByIndex s idx = .ok o →
      ∃ k, (k, o) ∈ s.objects ∧ idx ∈ o.region ∧ o.label = k ∧ k ≠ s.bg ∧
        ∀ e ∈ s.objects, e.1 < k → idx ∉ e.2.region) := by
  unfold getLabelObjectByIndex
  rcases hfind : s.objects.find? (fun e => idx ∈ e.2.region) with - | e
  · rw [hfind]
    have hnone : ∀ e ∈ s.objects, idx ∉ e.2.region := by
      intro e he
      have := List.find?_eq_none.mp hfind e he
      simpa using this
    refine ⟨iff_of_true rfl hnone, ?_⟩
    intro o h
    simp at h
  · rw [hfind]
    have he : e ∈ s.objects := List.mem_of_find?_eq_some hfind
    have hp : idx ∈ e.2.region := by simpa using List.find?_some hfind
    constructor
    · refine iff_of_false (by simp) ?_
      intro hall
      exact hall e he hp
    · intro o h
      rcases Except.ok.inj h with rfl
      refine ⟨e.1, he, hp, hm _ he, hb _ he, ?_⟩
      intro a ha hlt
      have := find?_sorted_first hs hfind a ha hlt
      simpa using this

theorem getLabelObjectByIndex_spec_witness :
    ((getLabelObjectByIndex (⟨0, [(1, ⟨1, {5}⟩), (3, ⟨3, {5, 6}⟩)], 0⟩ : LabelMap) 9 =
        .error .positionNotFound) ↔
      ∀ e ∈ [((1 : ℕ), (⟨1, {5}⟩ : LabelObject)), (3, ⟨3, {5, 6}⟩)],
        (9 : ℕ) ∉ e.2.region) ∧
    (∃ k, (k, (⟨1, {5}⟩ : LabelObject)) ∈
        [((1 : ℕ), (⟨1, {5}⟩ : LabelObject)), (3, ⟨3, {5, 6}⟩)] ∧
      (5 : ℕ) ∈ (⟨1, {5}⟩ : LabelObject).region ∧
      (⟨1, {5}⟩ : LabelObject).label = k ∧ k ≠ 0 ∧
      ∀ e ∈ [((1 : ℕ), (⟨1, {5}⟩ : LabelObject)), (3, ⟨3, {5, 6}⟩)],
        e.1 < k → (5 : ℕ) ∉ e.2.region) :=
  ⟨(getLabelObjectByIndex_spec ⟨0, [(1, ⟨1, {5}⟩), (3, ⟨3, {5, 6}⟩)], 0⟩ 9
      (by decide) (by decide) (by decide)).1,
   (getLabelObjectByIndex_spec ⟨0, [(1, ⟨1, {5}⟩), (3, ⟨3, {5, 6}⟩)], 0⟩ 5
      (by decide) (by decide) (by decide)).2 ⟨1, {5}⟩ rfl⟩

end ITKLabelMap
